import Mathlib

/-!
Verification development for the `blob_loader` repository.

The definitions below are a shallow embedding of the Rust sources:
  * `src/link_script_parser.rs` — the arithmetic expression evaluator and the
    memory-region locator built from nom combinators;
  * `src/build_blob.rs` — the linker-script patcher, the blob layout loop and
    the manifest construction.

Text is modelled as `List Char`.  The nom result type distinguishes
recoverable errors (`Err::Error`) from unrecoverable ones (`Err::Failure`),
which is essential to the scanning behaviour of `take_till_and_consume`;
our `PRes` mirrors the three cases.  Machine integers are modelled with
`Nat`/`Int`; the one place the Rust code performs an explicitly wrapping
conversion (`u64 as i64`) is modelled with an explicit subtraction of `2^64`,
and `format!("{:x}")` on an `i64` is modelled by rendering the value
modulo `2^64`, exactly as Rust prints the two's complement bits.
-/

/-- Error kinds of `LinkParseErrorKind` in `link_script_parser.rs`, plus
`regionNotFound` for the `ErrorKind::TakeTill1` error produced when
`take_till_and_consume` exhausts the input. `parseInt` corresponds to the
`ParseInt` variant produced through `map_res`/`from_external_error`. -/
inductive ErrKind where
  | parseError
  | parseInt
  | missingOrigin
  | missingLength
  | incorrectRegion
  | regionNotFound
deriving DecidableEq, Repr

/-- Result of a nom parser: `ok rest value`, a recoverable `Err::Error`, or an
unrecoverable `Err::Failure`. -/
inductive PRes (α : Type) where
  | ok : List Char → α → PRes α
  | err : ErrKind → PRes α
  | fail : ErrKind → PRes α
deriving DecidableEq, Repr

/-- nom's `space0`: spaces and tabs only (never newlines). -/
def isSpaceChar (c : Char) : Bool := c = ' ' || c = '\t'

/-- nom's `is_dec_digit`: ASCII `0-9`. -/
def isDigitChar (c : Char) : Bool := c.isDigit

/-- nom's `is_hex_digit`: ASCII `0-9`, `a-f`, `A-F`. -/
def isHexDigitChar (c : Char) : Bool :=
  c.isDigit || ('a' ≤ c && c ≤ 'f') || ('A' ≤ c && c ≤ 'F')

/-- nom's `AsChar::is_alphanum` for `char`: ASCII alphanumeric. -/
def isAlphanumChar (c : Char) : Bool := c.isAlpha || c.isDigit

/-- `nom::character::complete::space0` (the consumed value is unused by the
sources, so only the rest is returned). -/
def space0 (input : List Char) : List Char := input.dropWhile isSpaceChar

/-- The `xxx1` nom scanners (`digit1`, `hex_digit1`, `alphanumeric1`): take a
maximal non-empty run of characters satisfying `p`. -/
def takeWhile1 (p : Char → Bool) (input : List Char) : PRes (List Char) :=
  match input.takeWhile p with
  | [] => .err .parseError
  | t => .ok (input.dropWhile p) t

/-- `nom::bytes::complete::tag`. -/
def tag (t : List Char) (input : List Char) : PRes (List Char) :=
  if t.isPrefixOf input then .ok (input.drop t.length) t else .err .parseError

/-- `nom::bytes::complete::take_until`: consume up to (excluding) the first
occurrence of `t`; returns `(rest at the occurrence, consumed)`. -/
def takeUntil (t : List Char) : List Char → Option (List Char × List Char)
  | [] => if t.isPrefixOf ([] : List Char) then some ([], []) else none
  | c :: cs =>
    if t.isPrefixOf (c :: cs) then some (c :: cs, [])
    else
      match takeUntil t cs with
      | some (rest, taken) => some (rest, c :: taken)
      | none => none

/-- Numeric value of a single hex digit. -/
def hexDigitVal (c : Char) : Nat :=
  if c.isDigit then c.toNat - '0'.toNat
  else if 'a' ≤ c && c ≤ 'f' then c.toNat - 'a'.toNat + 10
  else if 'A' ≤ c && c ≤ 'F' then c.toNat - 'A'.toNat + 10
  else 0

/-- Mathematical value of a hex digit string. -/
def hexVal (ds : List Char) : Nat := ds.foldl (fun a c => a * 16 + hexDigitVal c) 0

/-- Mathematical value of a decimal digit string. -/
def decVal (ds : List Char) : Nat := ds.foldl (fun a c => a * 10 + (c.toNat - '0'.toNat)) 0

/-- `from_hex` in `link_script_parser.rs`: `u64::from_str_radix(input, 16)`.
For a non-empty string of hex digits Rust's checked accumulation succeeds
exactly when the mathematical value fits in a `u64`. -/
def from_hex (ds : List Char) : Option Nat :=
  if hexVal ds < 2 ^ 64 then some (hexVal ds) else none

/-- `from_dec` in `link_script_parser.rs`: `u64::from_str_radix(input, 10)`. -/
def from_dec (ds : List Char) : Option Nat :=
  if decVal ds < 2 ^ 64 then some (decVal ds) else none

/-- Rust's `u64 as i64` wrapping cast. -/
def u64AsI64 (n : Nat) : Int :=
  if n < 2 ^ 63 then (n : Int) else (n : Int) - 2 ^ 64

/-- `hex_number`: `alt((tag("0x"), tag("0X")))` then `map_res(hex_digit1, from_hex)`.
A `map_res` failure is a recoverable `Err::Error` with the `ParseInt` kind. -/
def hex_number (input : List Char) : PRes Nat :=
  match input with
  | c1 :: c2 :: r =>
    if c1 = '0' ∧ (c2 = 'x' ∨ c2 = 'X') then
      match takeWhile1 isHexDigitChar r with
      | .ok r2 ds =>
        match from_hex ds with
        | some v => .ok r2 v
        | none => .err .parseInt
      | .err k => .err k
      | .fail k => .fail k
    else .err .parseError
  | _ => .err .parseError

/-- `dec_number`: `map_res(digit1, from_dec)`. -/
def dec_number (input : List Char) : PRes Nat :=
  match takeWhile1 isDigitChar input with
  | .ok r2 ds =>
    match from_dec ds with
    | some v => .ok r2 v
    | none => .err .parseInt
  | .err k => .err k
  | .fail k => .fail k

/-- The non-recursive second alternative of `number`:
`map(alt((hex_number, dec_number)), |a| a as i64)`.  As in nom's `alt`, if
both branches fail the error of the last branch is returned. -/
def numBase (input : List Char) : PRes Int :=
  match hex_number input with
  | .ok r v => .ok r (u64AsI64 v)
  | .err _ =>
    match dec_number input with
    | .ok r v => .ok r (u64AsI64 v)
    | .err k => .err k
    | .fail k => .fail k
  | .fail k => .fail k

/-- Dispatch tag for the mutually recursive parsers `number`, `suffixed`,
`term`, `terms` and the `fold_many0` loop inside `terms` (which carries its
accumulator). -/
inductive PMode where
  | num
  | sfx
  | trm
  | trm23
  | trms
  | trmsA (acc : Int)

/-- The recursive core of the expression evaluator, structurally recursive on
a fuel argument (every recursive call of the Rust parser consumes input, so
any fuel larger than a small multiple of the input length is sufficient; the
top-level wrappers below supply such a fuel).

  * `.num`  = `number`  : `alt((sign then number, (hex|dec) as i64))`
  * `.sfx`  = `suffixed`: `number` then `opt('K'|'M')`
  * `.trm`  = `term`    : `alt(( '(' space0 terms space0 ')', '-' space0 term, suffixed))`
  * `.trm23`            : the last two alternatives of `term` (tried, on the
    original input, when the parenthesis alternative fails recoverably)
  * `.trms` = `terms`   : `term` then `fold_many0((space0 op, space0 term))`
  * `.trmsA acc`        : the `fold_many0` loop, backtracking to the input
    from before a partially matched iteration, as nom does. -/
def parseE : Nat → PMode → List Char → PRes Int
  | 0, _, _ => .err .parseError
  | fuel + 1, mode, input =>
    match mode with
    | .num =>
      match input with
      | c :: rest =>
        if c = '-' || c = '+' then
          match parseE fuel .num rest with
          | .ok r n => .ok r (if c = '-' then -n else n)
          | .err _ => numBase input
          | .fail k => .fail k
        else numBase input
      | [] => numBase input
    | .sfx =>
      match parseE fuel .num input with
      | .ok r v =>
        match r with
        | 'K' :: r2 => .ok r2 (v * 1024)
        | 'M' :: r2 => .ok r2 (v * (1024 * 1024))
        | _ => .ok r v
      | .err k => .err k
      | .fail k => .fail k
    | .trm =>
      match input with
      | '(' :: r =>
        match parseE fuel .trms (space0 r) with
        | .ok r2 v =>
          match space0 r2 with
          | ')' :: r4 => .ok r4 v
          | _ => parseE fuel .trm23 input
        | .err _ => parseE fuel .trm23 input
        | .fail k => .fail k
      | _ => parseE fuel .trm23 input
    | .trm23 =>
      match input with
      | '-' :: r =>
        match parseE fuel .trm (space0 r) with
        | .ok r2 v => .ok r2 (-v)
        | .err _ => parseE fuel .sfx input
        | .fail k => .fail k
      | _ => parseE fuel .sfx input
    | .trms =>
      match parseE fuel .trm input with
      | .ok r v => parseE fuel (.trmsA v) r
      | .err k => .err k
      | .fail k => .fail k
    | .trmsA acc =>
      match space0 input with
      | c :: r2 =>
        if c = '+' || c = '-' then
          match parseE fuel .trm (space0 r2) with
          | .ok r3 b => parseE fuel (.trmsA (if c = '+' then acc + b else acc - b)) r3
          | .err _ => .ok input acc
          | .fail k => .fail k
        else .ok input acc
      | [] => .ok input acc

/-- Ample fuel for `parseE` on a given input (call depth is bounded by a small
multiple of the input length). -/
def exprFuel (input : List Char) : Nat := 16 * (input.length + 2)

/-- `number` of `link_script_parser.rs`. -/
def number (input : List Char) : PRes Int := parseE (exprFuel input) .num input

/-- `suffixed` of `link_script_parser.rs`. -/
def suffixed (input : List Char) : PRes Int := parseE (exprFuel input) .sfx input

/-- `term` of `link_script_parser.rs`. -/
def term (input : List Char) : PRes Int := parseE (exprFuel input) .trm input

/-- `terms` of `link_script_parser.rs`. -/
def terms (input : List Char) : PRes Int := parseE (exprFuel input) .trms input

/-- `expr` of `link_script_parser.rs` (an alias for `terms`). -/
def expr (input : List Char) : PRes Int := terms input

/-- Whether a parse outcome is a recoverable `Err::Error`. -/
def PRes.isError {α : Type} : PRes α → Bool
  | .err _ => true
  | _ => false

/-- Every run of hex digits readable at any position of the text denotes a
value below `2^63`; under this bound no literal parsed anywhere in the text
can overflow a `u64` or wrap in the `as i64` cast (decimal runs are prefixes
of hex runs with digitwise-smaller values). -/
def litsBounded (input : List Char) : Prop :=
  ∀ i, i ≤ input.length → hexVal ((input.drop i).takeWhile isHexDigitChar) < 2 ^ 63

instance litsBounded_decidable (input : List Char) : Decidable (litsBounded input) :=
  Nat.decidableBallLE input.length _

/-- `memory_arg`: `tuple((space0, alphanumeric1, space0, tag("="), space0, expr))`,
returning the field name and the evaluated expression. -/
def memory_arg (input : List Char) : PRes (List Char × Int) :=
  match takeWhile1 isAlphanumChar (space0 input) with
  | .ok r1 name =>
    match tag "=".toList (space0 r1) with
    | .ok r3 _ =>
      match expr (space0 r3) with
      | .ok r5 v => .ok r5 (name, v)
      | .err k => .err k
      | .fail k => .fail k
    | .err k => .err k
    | .fail k => .fail k
  | .err k => .err k
  | .fail k => .fail k

/-- The loop of `separated_list1(pair(space0, nom_char(',')), memory_arg)`
after its first element: try the separator and the next element, backtracking
to the input from before the separator when either fails recoverably, as nom
does; a `Failure` from `memory_arg` is propagated. Each iteration consumes the
`','`, so `input.length + 1` fuel is enough. -/
def sepArgs : Nat → List Char → List (List Char × Int) → PRes (List (List Char × Int))
  | 0, _, _ => .err .parseError
  | fuel + 1, input, acc =>
    match space0 input with
    | ',' :: r2 =>
      match memory_arg r2 with
      | .ok r3 a => sepArgs fuel r3 (acc ++ [a])
      | .err _ => .ok input acc
      | .fail k => .fail k
    | _ => .ok input acc

/-- The `for a in args` loop of `memory_line`: the last `ORIGIN` / `LENGTH`
assignment wins. -/
def pickArgs (args : List (List Char × Int)) : Option Int × Option Int :=
  args.foldl
    (fun (p : Option Int × Option Int) a =>
      if a.1 = "ORIGIN".toList then (some a.2, p.2)
      else if a.1 = "LENGTH".toList then (p.1, some a.2)
      else p)
    (none, none)

/-- The `opt(delimited(tag("("), take_until(")"), tag(")")))` step of
`memory_line`: on any recoverable failure `opt` rewinds to the original
input and yields no attribute. -/
def parseAttr (r2 : List Char) : Option (List Char) × List Char :=
  match r2 with
  | '(' :: r =>
    match takeUntil ")".toList r with
    | some (rest, taken) =>
      match tag ")".toList rest with
      | .ok r3 _ => (some taken, r3)
      | _ => (none, r2)
    | none => (none, r2)
  | _ => (none, r2)

/-- `memory_line` of `link_script_parser.rs`: name, optional parenthesised
attribute, `':'`, a comma-separated argument list; missing `ORIGIN` (checked
first) or `LENGTH` is an unrecoverable `Err::Failure`. -/
def memory_line (input : List Char) :
    PRes (List Char × Option (List Char) × Int × Int) :=
  match takeWhile1 isAlphanumChar (space0 input) with
  | .ok r1 name =>
    let ar : Option (List Char) × List Char := parseAttr (space0 r1)
    match tag ":".toList ar.2 with
    | .ok r4 _ =>
      match memory_arg r4 with
      | .ok r5 a =>
        match sepArgs (r5.length + 1) r5 [a] with
        | .ok r6 args =>
          match pickArgs args with
          | (none, _) => .fail .missingOrigin
          | (some _, none) => .fail .missingLength
          | (some o, some l) => .ok r6 (name, ar.1, o, l)
        | .err k => .err k
        | .fail k => .fail k
      | .err k => .err k
      | .fail k => .fail k
    | .err k => .err k
    | .fail k => .fail k
  | .err k => .err k
  | .fail k => .fail k

/-- `named_memory_line`: `memory_line`, then a name check; a mismatched name
is the recoverable `IncorrectRegion` error. -/
def named_memory_line (matchName : List Char) (input : List Char) :
    PRes (List Char × Option (List Char) × Int × Int) :=
  match memory_line input with
  | .ok rest (name, attr, origin, length) =>
    if name = matchName then .ok rest (name, attr, origin, length)
    else .err .incorrectRegion
  | .err k => .err k
  | .fail k => .fail k

/-- The loop of `take_till_and_consume`: try the parser at each successive
start position (accumulating the skipped text in `pre`); a recoverable error
advances one position, anything else is returned; exhausting the input yields
the `ErrorKind::TakeTill1` error (`regionNotFound`). -/
def scanFrom {α : Type} (g : List Char → PRes α) :
    List Char → List Char → PRes (List Char × α)
  | _, [] => .err .regionNotFound
  | pre, c :: cs =>
    match g (c :: cs) with
    | .ok r v => .ok r (pre, v)
    | .err _ => scanFrom g (pre ++ [c]) cs
    | .fail k => .fail k

/-- `take_till_and_consume` of `link_script_parser.rs`. -/
def take_till_and_consume {α : Type} (g : List Char → PRes α) (input : List Char) :
    PRes (List Char × α) :=
  scanFrom g [] input

/-- `find_memory_def` of `link_script_parser.rs`. -/
def find_memory_def (input : List Char) (name : List Char) :
    PRes (List Char × (List Char × Option (List Char) × Int × Int)) :=
  take_till_and_consume (named_memory_line name) input

instance {ε α : Type} [DecidableEq ε] [DecidableEq α] : DecidableEq (Except ε α) :=
  fun a b =>
    match a, b with
    | .ok x, .ok y => if h : x = y then .isTrue (by rw [h]) else .isFalse (by simp [h])
    | .error x, .error y => if h : x = y then .isTrue (by rw [h]) else .isFalse (by simp [h])
    | .ok _, .error _ => .isFalse (by simp)
    | .error _, .ok _ => .isFalse (by simp)

/-- Rust `format!("{:x}", v)` for an `i64`: lowercase hex of the two's
complement bit pattern. -/
def i64Hex (v : Int) : List Char := Nat.toDigits 16 ((v % (2 ^ 64 : Int)).toNat)

/-- The `format!` template of `build_link_script`:
`"{} {}: ORIGIN = 0x{:x}, LENGTH = 0x{:x}"`. -/
def renderDecl (name : List Char) (attr : Option (List Char)) (origin newLen : Int) :
    List Char :=
  name ++ [' '] ++
    (match attr with
     | some a => '(' :: (a ++ [')'])
     | none => []) ++
    ": ORIGIN = 0x".toList ++ i64Hex origin ++
    ", LENGTH = 0x".toList ++ i64Hex newLen

/-- `build_link_script` of `build_blob.rs` as a pure function from the input
text and the reserved length to the output text and the returned address
(`origin + flash_length - length`).  The Rust function stringifies the parse
error; the underlying kind is kept here. -/
def build_link_script (input : List Char) (length : Int) :
    Except ErrKind (List Char × Int) :=
  match find_memory_def input "FLASH".toList with
  | .ok after (before, (name, attr, origin, flashLength)) =>
    .ok (before ++ renderDecl name attr origin (flashLength - length) ++ after,
      origin + flashLength - length)
  | .err k => .error k
  | .fail k => .error k

/-- The `BlobParams` TOML table of `build_blob.rs`. -/
structure BlobParams where
  filename : String
  inline : Option Bool
  inline_dev : Option Bool
  inline_release : Option Bool
deriving DecidableEq, Repr

/-- The `Blob` record of `build_blob.rs`.  `start` and `size` are `u32` in
Rust (`u32::try_from` guards the size during `read_blobs`); checksums are the
20 SHA-1 digest bytes, carried as opaque data. -/
structure Blob where
  name : String
  start : Nat
  size : Nat
  checksum : List Nat
  filename : String
  inline : Bool
deriving DecidableEq, Repr

/-- The inline-flag resolution of `read_blobs`:
`params.inline.unwrap_or_else(|| if release { params.inline_release.unwrap_or(true) } else { params.inline_dev.unwrap_or(false) })`. -/
def resolveInline (release : Bool) (p : BlobParams) : Bool :=
  p.inline.getD (if release then p.inline_release.getD true else p.inline_dev.getD false)

/-- The `for (name, params) in blob_config.files` loop of `read_blobs`.  Each
configuration entry is given together with the byte length and SHA-1 digest of
its source file (streaming the file and hashing are I/O, outside the embedded
fragment); `total` is the running `total_size`, bumped only for non-inline
blobs (`// Only loaded blobs need space`). The order of `entries` is the
`HashMap` iteration order of the Rust code. -/
def read_blobs_go (release : Bool) :
    List (String × BlobParams × Nat × List Nat) → Nat → Except String (List Blob)
  | [], _ => .ok []
  | (name, p, fsize, cs) :: rest, total =>
    if fsize < 2 ^ 32 then
      let inl := resolveInline release p
      match read_blobs_go release rest (if inl then total else total + fsize) with
      | .ok bs =>
        .ok ({ name := name, start := total, size := fsize, checksum := cs,
               filename := p.filename, inline := inl } :: bs)
      | .error e => .error e
    else .error "out of range integral type conversion attempted"

/-- `read_blobs` of `build_blob.rs`, starting from `total_size = 0`. -/
def read_blobs (release : Bool)
    (entries : List (String × BlobParams × Nat × List Nat)) : Except String (List Blob) :=
  read_blobs_go release entries 0

/-- The reservation computed by `prepare_blob`:
`let last_blob = blobs.last().ok_or_else(|| "No blobs defined")?;
 let total_size = last_blob.start + last_blob.size;`. -/
def prepare_total_size (blobs : List Blob) : Except String Nat :=
  match blobs.getLast? with
  | none => .error "No blobs defined"
  | some b => .ok (b.start + b.size)

/-- The quantity named by the specification: the sum of the sizes of the
non-inline blobs (stated from the spec's words, for comparison with
`prepare_total_size`). -/
def sumNonInlineSizes (blobs : List Blob) : Nat :=
  ((blobs.filter fun b => !b.inline).map Blob.size).sum

/-- The `BlobInfo` manifest record of `blob_info.rs`. -/
structure BlobInfo where
  start : Nat
  size : Nat
  checksum : List Nat
  filename : String
deriving DecidableEq, Repr

/-- The `for blob in blobs` loop of `build_blob_info`: insert an entry into
the map for each non-inline blob (a later duplicate name overwrites, as
`HashMap::insert` does). -/
def blob_info_go (origin : Nat) :
    List Blob → (String → Option BlobInfo) → String → Option BlobInfo
  | [], m => m
  | b :: rest, m =>
    blob_info_go origin rest
      (if b.inline then m
       else fun k =>
         if k = b.name then
           some { start := b.start + origin, size := b.size,
                  checksum := b.checksum, filename := b.filename }
         else m k)

/-- The map built by `build_blob_info` of `build_blob.rs` (the subsequent TOML
serialization is a faithful rendering of this map plus the probe string). -/
def build_blob_info (blobs : List Blob) (origin : Nat) : String → Option BlobInfo :=
  blob_info_go origin blobs (fun _ => none)

/-- Two concrete blobs used to instantiate `c10_manifest_entries`. -/
def c10DemoA : Blob :=
  { name := "a", start := 0, size := 100, checksum := [1, 2],
    filename := "fa", inline := false }

def c10DemoB : Blob :=
  { name := "b", start := 100, size := 50, checksum := [3],
    filename := "fb", inline := true }

/-! ## Helper lemmas -/

/-- If the scan of `take_till_and_consume` exhausts the input (the
`TakeTill1` error), then the inner parser succeeds at no start position. -/
theorem scanFrom_err_no_match {α : Type} (g : List Char → PRes α)
    (hnil : ∀ rest res, g [] ≠ .ok rest res) :
    ∀ (l pre : List Char) (k : ErrKind), scanFrom g pre l = .err k →
      ∀ (i : Nat) (rest : List Char) (res : α), g (l.drop i) ≠ .ok rest res := by
  intro l
  induction l with
  | nil =>
    intro pre k _ i rest res
    simpa using hnil rest res
  | cons c cs ih =>
    intro pre k h i rest res
    cases hg : g (c :: cs) with
    | ok r v => simp only [scanFrom, hg] at h; exact absurd h (by simp)
    | err k' =>
      simp only [scanFrom, hg] at h
      cases i with
      | zero => simp [hg]
      | succ i => exact ih _ _ h i rest res
    | fail k' => simp only [scanFrom, hg] at h; exact absurd h (by simp)

/-- `named_memory_line` never succeeds on empty input. -/
theorem named_memory_line_nil (name : List Char) :
    ∀ rest res, named_memory_line name [] ≠ .ok rest res := by
  intro rest res
  simp [named_memory_line, memory_line, space0, takeWhile1]

/-! ## Claim theorems -/

/-- C1: the spec requires the Linker Script Patcher to fail with
`ReservedSpaceExceedsRegion` whenever the reserved length exceeds the region's
evaluated LENGTH, keeping the patched length nonnegative.  The code has no
such check: reserving `0x200` from a region of LENGTH `0x100` succeeds and
writes the negative length `-0x100` as its two's-complement hex rendering. -/
theorem c1_no_reserved_space_check :
    build_link_script "FLASH : ORIGIN = 0x10000100, LENGTH = 0x100".toList 0x200 =
      .ok ("FLASH : ORIGIN = 0x10000100, LENGTH = 0xffffffffffffff00".toList,
        0x10000100 + 0x100 - 0x200) ∧
    (0x100 : Int) - 0x200 < 0 :=
  ⟨by decide, by decide⟩

/-- C2: the spec says the total reservation equals the sum of the non-inline
blob sizes (0 when every blob is inline).  `prepare_blob` instead computes
`last_blob.start + last_blob.size` for the last blob of the list regardless of
its inline flag: a single inline blob of size 100 yields a reservation of 100
where the claim requires 0. -/
theorem c2_trailing_inline_blob_reserved :
    read_blobs false [("a", ⟨"a.bin", some true, none, none⟩, 100, [])] =
      .ok [{ name := "a", start := 0, size := 100, checksum := [],
             filename := "a.bin", inline := true }] ∧
    prepare_total_size
        [{ name := "a", start := 0, size := 100, checksum := [],
           filename := "a.bin", inline := true }] = .ok 100 ∧
    sumNonInlineSizes
        [{ name := "a", start := 0, size := 100, checksum := [],
           filename := "a.bin", inline := true }] = 0 ∧
    (100 : Nat) ≠ 0 :=
  ⟨by decide, by decide, by decide, by decide⟩

/-- C3: a declaration that parses but whose name differs from the target is a
recoverable non-match (`IncorrectRegion`): the scan advances one position and
retries, and the `RegionNotFound` (`TakeTill1`) outcome occurs only when no
correctly-named well-formed declaration parses at any start position. -/
theorem c3_locator_skips_wrong_names (input name : List Char) :
    (find_memory_def input name = .err .regionNotFound →
      ∀ (i : Nat) (rest : List Char) (res : List Char × Option (List Char) × Int × Int),
        named_memory_line name (input.drop i) ≠ .ok rest res) ∧
    (∀ (sfx rest nm : List Char) (attr : Option (List Char)) (o l : Int),
      memory_line sfx = .ok rest (nm, attr, o, l) → nm ≠ name →
      named_memory_line name sfx = .err .incorrectRegion) ∧
    (∀ (pre : List Char) (c : Char) (cs : List Char) (k : ErrKind),
      named_memory_line name (c :: cs) = .err k →
      scanFrom (named_memory_line name) pre (c :: cs) =
        scanFrom (named_memory_line name) (pre ++ [c]) cs) := by
  refine ⟨?_, ?_, ?_⟩
  · intro h i rest res
    exact scanFrom_err_no_match _ (named_memory_line_nil name) input [] _ h i rest res
  · intro sfx rest nm attr o l h hne
    simp [named_memory_line, h, hne]
  · intro pre c cs k h
    simp only [scanFrom, h]

theorem c3_locator_skips_wrong_names_witness :
    (∀ (rest : List Char) (res : List Char × Option (List Char) × Int × Int),
      named_memory_line "FLASH".toList
        (("RAM : ORIGIN = 0, LENGTH = 1\n".toList).drop 0) ≠ .ok rest res) ∧
    named_memory_line "FLASH".toList "RAM : ORIGIN = 0, LENGTH = 1\n".toList =
      .err .incorrectRegion := by
  constructor
  · intro rest res
    exact (c3_locator_skips_wrong_names "RAM : ORIGIN = 0, LENGTH = 1\n".toList
      "FLASH".toList).1 (by decide) 0 rest res
  · exact (c3_locator_skips_wrong_names "RAM : ORIGIN = 0, LENGTH = 1\n".toList
      "FLASH".toList).2.1 _ "\n".toList "RAM".toList none 0 1 (by decide) (by decide)

/-- C7: on every successful parse of the target region the patcher rewrites
the declaration with `LENGTH = flash_length - length` and returns
`origin + flash_length - length`; and the spec's concrete example. -/
theorem c7_patch_return_value :
    (∀ (input : List Char) (r : Int) (after before nm : List Char)
        (attr : Option (List Char)) (o l : Int),
      find_memory_def input "FLASH".toList = .ok after (before, (nm, attr, o, l)) →
      build_link_script input r =
        .ok (before ++ renderDecl nm attr o (l - r) ++ after, o + l - r)) ∧
    build_link_script "FLASH : ORIGIN = 0x10000100, LENGTH = 1024K - 0x100".toList 0x200 =
      .ok ("FLASH : ORIGIN = 0x10000100, LENGTH = 0xffd00".toList,
        0x10000100 + 1047808) := by
  constructor
  · intro input r after before nm attr o l h
    simp only [build_link_script]
    rw [h]
  · decide

theorem c7_patch_return_value_witness :
    build_link_script "FLASH : ORIGIN = 0, LENGTH = 8".toList 3 =
      .ok (([] : List Char) ++
        renderDecl "FLASH".toList none 0 ((8 : Int) - 3) ++ ([] : List Char), 0 + 8 - 3) := by
  have h := c7_patch_return_value.1 "FLASH : ORIGIN = 0, LENGTH = 8".toList 3
    [] [] "FLASH".toList none 0 8 (by decide)
  simpa using h

/-- C8: a `K`/`M` suffix multiplies the preceding number exactly once:
`"1MK"` consumes `1M`, yields 1048576 and leaves `"K"` unconsumed. -/
theorem c8_suffix_applies_once :
    suffixed "1MK".toList = .ok ['K'] 1048576 ∧
    expr "1MK".toList = .ok ['K'] 1048576 :=
  ⟨by decide, by decide⟩

/-- The scan of `take_till_and_consume` stops at the first position whose
parse is not a recoverable error: if every earlier position yields
`Err::Error` and position `i` yields `Err::Failure`, the failure is the
overall result — a hard failure is never skipped. -/
theorem scanFrom_fail_at {α : Type} (g : List Char → PRes α) :
    ∀ (l pre : List Char) (i : Nat) (k : ErrKind),
      i < l.length →
      (∀ j, j < i → (g (l.drop j)).isError = true) →
      g (l.drop i) = .fail k →
      scanFrom g pre l = .fail k := by
  intro l
  induction l with
  | nil =>
    intro pre i k hi
    simp at hi
  | cons c cs ih =>
    intro pre i k hi hbefore hfail
    cases i with
    | zero =>
      rw [List.drop_zero] at hfail
      simp only [scanFrom, hfail]
    | succ i =>
      have h0 := hbefore 0 (Nat.succ_pos i)
      rw [List.drop_zero] at h0
      rw [List.drop_succ_cons] at hfail
      cases hg : g (c :: cs) with
      | ok r v => rw [hg] at h0; simp [PRes.isError] at h0
      | err k' =>
        simp only [scanFrom, hg]
        refine ih (pre ++ [c]) i k (by simpa using hi) ?_ hfail
        intro j hj
        have := hbefore (j + 1) (by omega)
        rwa [List.drop_succ_cons] at this
      | fail k' => rw [hg] at h0; simp [PRes.isError] at h0

/-- C9: a declaration that parses structurally (name, optional attribute,
`':'`, argument list) but whose arguments contain no LENGTH — respectively no
ORIGIN, which is checked first — makes `memory_line` fail with the
unrecoverable `MissingLength` / `MissingOrigin` failure (conjuncts 1 and 2);
that failure passes unchanged through the name check of `named_memory_line`
(conjunct 3) and is never silently skipped by the scan: whenever every
earlier position is a recoverable non-match the locator reports it as the
final result, regardless of any well-formed declarations elsewhere
(conjunct 4); the spec's scenarios with a preceding well-formed RAM
declaration instantiate this (conjuncts 5 and 6). -/
theorem c9_missing_fields_hard_failure :
    (∀ (input r1 nmv r4 tv r5 : List Char) (a : List Char × Int)
        (r6 : List Char) (args : List (List Char × Int)) (o : Int),
      takeWhile1 isAlphanumChar (space0 input) = .ok r1 nmv →
      tag ":".toList (parseAttr (space0 r1)).2 = .ok r4 tv →
      memory_arg r4 = .ok r5 a →
      sepArgs (r5.length + 1) r5 [a] = .ok r6 args →
      pickArgs args = (some o, none) →
      memory_line input = .fail .missingLength) ∧
    (∀ (input r1 nmv r4 tv r5 : List Char) (a : List Char × Int)
        (r6 : List Char) (args : List (List Char × Int)),
      takeWhile1 isAlphanumChar (space0 input) = .ok r1 nmv →
      tag ":".toList (parseAttr (space0 r1)).2 = .ok r4 tv →
      memory_arg r4 = .ok r5 a →
      sepArgs (r5.length + 1) r5 [a] = .ok r6 args →
      (pickArgs args).1 = none →
      memory_line input = .fail .missingOrigin) ∧
    (∀ (nm input : List Char) (k : ErrKind),
      memory_line input = .fail k → named_memory_line nm input = .fail k) ∧
    (∀ (nm input : List Char) (i : Nat) (k : ErrKind),
      i < input.length →
      (∀ j, j < i → (named_memory_line nm (input.drop j)).isError = true) →
      named_memory_line nm (input.drop i) = .fail k →
      find_memory_def input nm = .fail k) ∧
    find_memory_def "RAM : ORIGIN = 0, LENGTH = 1\nFLASH : ORIGIN = 0x100\n".toList
      "FLASH".toList = .fail .missingLength ∧
    find_memory_def "RAM : ORIGIN = 0, LENGTH = 1\nFLASH : LENGTH = 0x100\n".toList
      "FLASH".toList = .fail .missingOrigin := by
  refine ⟨?_, ?_, ?_, ?_, by decide, by decide⟩
  · intro input r1 nmv r4 tv r5 a r6 args o h1 h2 h3 h4 h5
    unfold memory_line
    simp only [h1, h2, h3, h4, h5]
  · intro input r1 nmv r4 tv r5 a r6 args h1 h2 h3 h4 h5
    unfold memory_line
    simp only [h1, h2, h3, h4]
    cases hp : pickArgs args with
    | mk oo ll =>
      rw [hp] at h5
      simp only at h5
      subst h5
      rfl
  · intro nm input k h
    simp [named_memory_line, h]
  · intro nm input i k hi hb hf
    unfold find_memory_def take_till_and_consume
    exact scanFrom_fail_at _ input [] i k hi hb hf

theorem c9_missing_fields_hard_failure_witness :
    memory_line "FLASH : ORIGIN = 0x100\n".toList = .fail .missingLength ∧
    find_memory_def "RAM : ORIGIN = 0, LENGTH = 1\nFLASH : ORIGIN = 0x100\n".toList
      "FLASH".toList = .fail .missingLength := by
  constructor
  · exact c9_missing_fields_hard_failure.1 "FLASH : ORIGIN = 0x100\n".toList
      " : ORIGIN = 0x100\n".toList "FLASH".toList " ORIGIN = 0x100\n".toList
      ":".toList "\n".toList ("ORIGIN".toList, 256) "\n".toList
      [("ORIGIN".toList, 256)] 256 (by decide) (by decide) (by decide) (by decide)
      (by decide)
  · exact c9_missing_fields_hard_failure.2.2.2.1 "FLASH".toList
      "RAM : ORIGIN = 0, LENGTH = 1\nFLASH : ORIGIN = 0x100\n".toList 29
      .missingLength (by decide) (by decide) (by decide)

/-! ## Overflow behaviour of numeric literals (C4) -/

theorem isDigitChar_not_sign {c : Char} (h : isDigitChar c = true) :
    c ≠ '-' ∧ c ≠ '+' ∧ c ≠ 'x' ∧ c ≠ 'X' := by
  refine ⟨?_, ?_, ?_, ?_⟩ <;> rintro rfl <;> exact absurd h (by decide)

/-- `takeWhile1` on a non-empty input all of whose characters satisfy the
predicate consumes everything. -/
theorem takeWhile1_all {p : Char → Bool} {l : List Char} (hne : l ≠ [])
    (h : ∀ c ∈ l, p c = true) : takeWhile1 p l = .ok [] l := by
  unfold takeWhile1
  rw [List.takeWhile_eq_self_iff.mpr (by simpa using h),
    List.dropWhile_eq_nil_iff.mpr (by simpa using h)]
  cases l with
  | nil => exact absurd rfl hne
  | cons c cs => rfl

/-- When the first character is not a sign, `number` is just the second
alternative (hex or decimal literal, cast `as i64`). -/
theorem number_cons_not_sign {c : Char} {rest : List Char}
    (h1 : c ≠ '-') (h2 : c ≠ '+') :
    number (c :: rest) = numBase (c :: rest) := by
  unfold number
  obtain ⟨f, hf⟩ : ∃ f, exprFuel (c :: rest) = f + 1 :=
    ⟨16 * (rest.length + 3) - 1, by simp [exprFuel]; omega⟩
  rw [hf]
  simp only [parseE]
  rw [if_neg (by simp [h1, h2])]

/-- C4 counterexample: the literal `0x8000000000000000` has mathematical
value `2^63`, which does not fit in the signed 64-bit result type, yet the
evaluator succeeds and returns the wrapped value `-2^63` instead of failing
with an overflow error. -/
theorem c4_counterexample_hex_wraps :
    number "0x8000000000000000".toList = .ok [] (-9223372036854775808) ∧
    expr "0x8000000000000000".toList = .ok [] (-9223372036854775808) ∧
    hexVal "8000000000000000".toList = 2 ^ 63 ∧
    (-9223372036854775808 : Int) ≠ 2 ^ 63 :=
  ⟨by decide, by decide, by decide, by decide⟩

/-- A string made of decimal digits never parses as a hex literal (`0x`/`0X`
cannot follow the leading digit). -/
theorem hex_number_digits {c : Char} {rest : List Char}
    (hdig : ∀ x ∈ c :: rest, isDigitChar x = true) :
    hex_number (c :: rest) = .err .parseError := by
  cases rest with
  | nil => rfl
  | cons c2 r2 =>
    have hc2 := isDigitChar_not_sign (hdig c2 (by simp))
    simp [hex_number, hc2.2.2.1, hc2.2.2.2]

/-- C4 (amended): only a *decimal* literal whose value exceeds `2^64 - 1`
makes the evaluator fail with the integer-overflow (`ParseInt`) error; a hex
or decimal literal with value in `[2^63, 2^64)` is accepted and wrapped into
a negative `i64`; and a hex literal with value `≥ 2^64` does not fail at all
— the parser falls back to reading the leading `0` as a decimal literal,
leaving `x…` unconsumed. -/
theorem c4_overflow_behavior :
    (∀ ds : List Char, ds ≠ [] → (∀ c ∈ ds, isDigitChar c = true) →
      2 ^ 64 ≤ decVal ds → number ds = .err .parseInt) ∧
    (∀ ds : List Char, ds ≠ [] → (∀ c ∈ ds, isDigitChar c = true) →
      2 ^ 63 ≤ decVal ds → decVal ds < 2 ^ 64 →
      number ds = .ok [] ((decVal ds : Int) - 2 ^ 64)) ∧
    (∀ ds : List Char, ds ≠ [] → (∀ c ∈ ds, isHexDigitChar c = true) →
      2 ^ 63 ≤ hexVal ds → hexVal ds < 2 ^ 64 →
      number ('0' :: 'x' :: ds) = .ok [] ((hexVal ds : Int) - 2 ^ 64)) ∧
    (∀ ds : List Char, ds ≠ [] → (∀ c ∈ ds, isHexDigitChar c = true) →
      2 ^ 64 ≤ hexVal ds → number ('0' :: 'x' :: ds) = .ok ('x' :: ds) 0) := by
  refine ⟨?_, ?_, ?_, ?_⟩
  · intro ds hne hdig hov
    cases ds with
    | nil => exact absurd rfl hne
    | cons c rest =>
      have hcs := isDigitChar_not_sign (hdig c (by simp))
      rw [number_cons_not_sign hcs.1 hcs.2.1]
      have hhex := hex_number_digits hdig
      have hdec : dec_number (c :: rest) = .err .parseInt := by
        unfold dec_number
        rw [takeWhile1_all hne hdig]
        simp only [from_dec]
        rw [if_neg (Nat.not_lt.mpr hov)]
      simp only [numBase, hhex, hdec]
  · intro ds hne hdig hlo hhi
    cases ds with
    | nil => exact absurd rfl hne
    | cons c rest =>
      have hcs := isDigitChar_not_sign (hdig c (by simp))
      rw [number_cons_not_sign hcs.1 hcs.2.1]
      have hhex := hex_number_digits hdig
      have hdec : dec_number (c :: rest) = .ok [] (decVal (c :: rest)) := by
        unfold dec_number
        rw [takeWhile1_all hne hdig]
        simp only [from_dec]
        rw [if_pos hhi]
      simp only [numBase, hhex, hdec, u64AsI64]
      rw [if_neg (Nat.not_lt.mpr hlo)]
  · intro ds hne hhexd hlo hhi
    rw [number_cons_not_sign (by decide) (by decide)]
    have hh : hex_number ('0' :: 'x' :: ds) = .ok [] (hexVal ds) := by
      simp only [hex_number]
      rw [if_pos (by simp), takeWhile1_all hne hhexd]
      simp only [from_hex]
      rw [if_pos hhi]
    simp only [numBase, hh, u64AsI64]
    rw [if_neg (Nat.not_lt.mpr hlo)]
  · intro ds hne hhexd hov
    rw [number_cons_not_sign (by decide) (by decide)]
    have hh : hex_number ('0' :: 'x' :: ds) = .err .parseInt := by
      simp only [hex_number]
      rw [if_pos (by simp), takeWhile1_all hne hhexd]
      simp only [from_hex]
      rw [if_neg (Nat.not_lt.mpr hov)]
    have h0 : isDigitChar '0' = true := by decide
    have hx : isDigitChar 'x' = false := by decide
    have hd : dec_number ('0' :: 'x' :: ds) = .ok ('x' :: ds) 0 := by
      unfold dec_number
      have ht : ('0' :: 'x' :: ds).takeWhile isDigitChar = ['0'] := by
        simp [List.takeWhile_cons, h0, hx]
      have hdr : ('0' :: 'x' :: ds).dropWhile isDigitChar = 'x' :: ds := by
        simp [List.dropWhile_cons, h0, hx]
      unfold takeWhile1
      rw [ht, hdr]
      rfl
    simp only [numBase, hh, hd]
    rfl

theorem c4_overflow_behavior_witness :
    number "18446744073709551616".toList = .err .parseInt ∧
    number "9223372036854775808".toList = .ok [] (-9223372036854775808) ∧
    number "0x8000000000000001".toList = .ok [] (-9223372036854775807) ∧
    number "0x10000000000000000".toList = .ok ('x' :: "10000000000000000".toList) 0 := by
  refine ⟨?_, ?_, ?_, ?_⟩
  · exact c4_overflow_behavior.1 "18446744073709551616".toList (by decide) (by decide)
      (by decide)
  · have h := c4_overflow_behavior.2.1 "9223372036854775808".toList (by decide) (by decide)
      (by decide) (by decide)
    have hv : ((decVal "9223372036854775808".toList : Int) - 2 ^ 64) =
        -9223372036854775808 := by decide
    rw [hv] at h
    exact h
  · have h := c4_overflow_behavior.2.2.1 "8000000000000001".toList (by decide) (by decide)
      (by decide) (by decide)
    have hv : ((hexVal "8000000000000001".toList : Int) - 2 ^ 64) =
        -9223372036854775807 := by decide
    rw [hv] at h
    exact h
  · exact c4_overflow_behavior.2.2.2 "10000000000000000".toList (by decide) (by decide)
      (by decide)

/-! ## Manifest contents (C10) -/

/-- A blob whose name occurs nowhere in the remaining list is untouched by the
rest of the `build_blob_info` loop. -/
theorem blob_info_go_not_mem (origin : Nat) :
    ∀ (bs : List Blob) (m : String → Option BlobInfo) (k : String),
      (∀ b ∈ bs, b.name ≠ k) → blob_info_go origin bs m k = m k := by
  intro bs
  induction bs with
  | nil => intro m k _; rfl
  | cons b rest ih =>
    intro m k h
    simp only [blob_info_go]
    rw [ih _ _ fun b' hb' => h b' (by simp [hb'])]
    by_cases hb : b.inline
    · simp [hb]
    · simp only [hb, if_false, Bool.false_eq_true]
      rw [if_neg fun hk => h b (by simp) hk.symm]

/-- Every non-inline blob of a duplicate-free list gets exactly the manifest
entry built from its fields. -/
theorem blob_info_go_mem (origin : Nat) :
    ∀ (bs : List Blob) (m : String → Option BlobInfo) (b : Blob),
      b ∈ bs → b.inline = false → (bs.map Blob.name).Nodup →
      blob_info_go origin bs m b.name =
        some { start := b.start + origin, size := b.size,
               checksum := b.checksum, filename := b.filename } := by
  intro bs
  induction bs with
  | nil => intro m b hb; simp at hb
  | cons hd rest ih =>
    intro m b hb hinl hnd
    have hnd' : (∀ x ∈ rest, ¬x.name = hd.name) ∧ (rest.map Blob.name).Nodup := by
      simpa using hnd
    simp only [blob_info_go]
    rcases List.mem_cons.mp hb with rfl | hbr
    · have hnone : ∀ b' ∈ rest, b'.name ≠ b.name := fun b' hb' => hnd'.1 b' hb'
      rw [blob_info_go_not_mem origin rest _ _ hnone]
      simp [hinl]
    · exact ih _ b hbr hinl hnd'.2

/-- The domain of the map built by the `build_blob_info` loop: a name is
present iff some blob in the processed list is non-inline with that name, or
it was already present. -/
theorem blob_info_go_isSome (origin : Nat) :
    ∀ (bs : List Blob) (m : String → Option BlobInfo) (k : String),
      (blob_info_go origin bs m k).isSome =
        (bs.any (fun b => !b.inline && b.name = k) || (m k).isSome) := by
  intro bs
  induction bs with
  | nil => intro m k; simp [blob_info_go]
  | cons b rest ih =>
    intro m k
    simp only [blob_info_go, List.any_cons]
    rw [ih]
    by_cases hb : b.inline
    · simp [hb]
    · by_cases hk : k = b.name
      · simp [hb, hk]
      · have hk' : ¬b.name = k := fun h => hk h.symm
        simp [hb, hk, hk']

/-- C10: the map serialized into the manifest has an entry for exactly the
non-inline blobs, and each such entry carries the absolute start address
`base + offset`, the blob's size, its checksum and its source path. -/
theorem c10_manifest_entries (blobs : List Blob) (origin : Nat)
    (hnd : (blobs.map Blob.name).Nodup) :
    (∀ k : String, (build_blob_info blobs origin k).isSome =
      blobs.any (fun b => !b.inline && b.name = k)) ∧
    (∀ b ∈ blobs, b.inline = false →
      build_blob_info blobs origin b.name =
        some { start := b.start + origin, size := b.size,
               checksum := b.checksum, filename := b.filename }) := by
  constructor
  · intro k
    rw [build_blob_info, blob_info_go_isSome]
    simp
  · intro b hb hinl
    exact blob_info_go_mem origin blobs _ b hb hinl hnd

theorem c10_manifest_entries_witness :
    build_blob_info [c10DemoA, c10DemoB] 1000 c10DemoA.name =
      some { start := c10DemoA.start + 1000, size := c10DemoA.size,
             checksum := c10DemoA.checksum, filename := c10DemoA.filename } ∧
    (build_blob_info [c10DemoA, c10DemoB] 1000 "b").isSome = false := by
  have h := c10_manifest_entries [c10DemoA, c10DemoB] 1000 (by decide)
  constructor
  · exact h.2 c10DemoA (by simp) (by decide)
  · rw [h.1 "b"]
    decide

/-! ## Consumption (suffix) properties of the parsers, for the frame claim -/

theorem space0_suffix (l : List Char) : space0 l <:+ l := List.dropWhile_suffix _

theorem takeWhile1_suffix {p : Char → Bool} {l r v : List Char}
    (h : takeWhile1 p l = .ok r v) : r <:+ l := by
  unfold takeWhile1 at h
  split at h
  · simp at h
  · cases h
    exact List.dropWhile_suffix p

theorem tag_suffix {t l r v : List Char} (h : tag t l = .ok r v) : r <:+ l := by
  unfold tag at h
  split at h
  · cases h
    exact List.drop_suffix _ _
  · simp at h

theorem takeUntil_suffix (t : List Char) :
    ∀ l rest taken : List Char, takeUntil t l = some (rest, taken) → rest <:+ l := by
  intro l
  induction l with
  | nil =>
    intro rest taken h
    unfold takeUntil at h
    split at h
    · cases h
      exact List.suffix_refl _
    · simp at h
  | cons c cs ih =>
    intro rest taken h
    unfold takeUntil at h
    split at h
    · cases h
      exact List.suffix_refl _
    · cases hx : takeUntil t cs with
      | some p =>
        obtain ⟨r', tk⟩ := p
        simp only [hx] at h
        cases h
        exact (ih _ _ hx).trans (List.suffix_cons c cs)
      | none => simp only [hx] at h; simp at h

theorem hex_number_suffix {input r : List Char} {v : Nat}
    (h : hex_number input = .ok r v) : r <:+ input := by
  unfold hex_number at h
  split at h
  · rename_i c1 c2 rr
    split at h
    · cases hx : takeWhile1 isHexDigitChar rr with
      | ok r2 ds =>
        simp only [hx] at h
        cases hf : from_hex ds with
        | some w =>
          simp only [hf] at h
          cases h
          exact (takeWhile1_suffix hx).trans
            ((List.suffix_cons c2 rr).trans (List.suffix_cons c1 (c2 :: rr)))
        | none => simp only [hf] at h; simp at h
      | err k => simp only [hx] at h; simp at h
      | fail k => simp only [hx] at h; simp at h
    · simp at h
  · simp at h

theorem dec_number_suffix {input r : List Char} {v : Nat}
    (h : dec_number input = .ok r v) : r <:+ input := by
  unfold dec_number at h
  cases hx : takeWhile1 isDigitChar input with
  | ok r2 ds =>
    simp only [hx] at h
    cases hf : from_dec ds with
    | some w =>
      simp only [hf] at h
      cases h
      exact takeWhile1_suffix hx
    | none => simp only [hf] at h; simp at h
  | err k => simp only [hx] at h; simp at h
  | fail k => simp only [hx] at h; simp at h

theorem numBase_suffix {input r : List Char} {v : Int}
    (h : numBase input = .ok r v) : r <:+ input := by
  unfold numBase at h
  cases hx : hex_number input with
  | ok r' v' =>
    simp only [hx] at h
    cases h
    exact hex_number_suffix hx
  | err k =>
    simp only [hx] at h
    cases hd : dec_number input with
    | ok r' v' =>
      simp only [hd] at h
      cases h
      exact dec_number_suffix hd
    | err k' => simp only [hd] at h; simp at h
    | fail k' => simp only [hd] at h; simp at h
  | fail k => simp only [hx] at h; simp at h

theorem parseE_suffix :
    ∀ (fuel : Nat) (mode : PMode) (input r : List Char) (v : Int),
      parseE fuel mode input = .ok r v → r <:+ input := by
  intro fuel
  induction fuel with
  | zero =>
    intro mode input r v h
    exact absurd h (by simp [parseE])
  | succ f ih =>
    intro mode input r v h
    cases mode with
    | num =>
      cases input with
      | nil =>
        simp only [parseE] at h
        exact numBase_suffix h
      | cons c rest =>
        simp only [parseE] at h
        split at h
        · cases hx : parseE f .num rest with
          | ok r' n =>
            simp only [hx] at h
            cases h
            exact (ih .num rest _ _ hx).trans (List.suffix_cons c rest)
          | err k =>
            simp only [hx] at h
            exact numBase_suffix h
          | fail k => simp only [hx] at h; simp at h
        · exact numBase_suffix h
    | sfx =>
      simp only [parseE] at h
      cases hx : parseE f .num input with
      | ok r' v' =>
        simp only [hx] at h
        have h1 := ih .num input r' v' hx
        split at h
        · cases h
          exact (List.suffix_cons _ _).trans h1
        · cases h
          exact (List.suffix_cons _ _).trans h1
        · cases h
          exact h1
      | err k => simp only [hx] at h; simp at h
      | fail k => simp only [hx] at h; simp at h
    | trm =>
      simp only [parseE] at h
      split at h
      · rename_i rr
        cases hx : parseE f .trms (space0 rr) with
        | ok r2 v2 =>
          simp only [hx] at h
          have h2 : r2 <:+ space0 rr := ih .trms _ _ _ hx
          split at h
          · rename_i x r4 heq4
            injection h with h5 h6
            rw [← h5]
            have h4 : r4 <:+ r2 :=
              (List.suffix_cons ')' r4).trans (heq4 ▸ space0_suffix r2)
            exact (h4.trans h2).trans
              ((space0_suffix rr).trans (List.suffix_cons '(' rr))
          · exact ih .trm23 _ _ _ h
        | err k =>
          simp only [hx] at h
          exact ih .trm23 _ _ _ h
        | fail k => simp only [hx] at h; simp at h
      · exact ih .trm23 _ _ _ h
    | trm23 =>
      simp only [parseE] at h
      split at h
      · rename_i rr
        cases hx : parseE f .trm (space0 rr) with
        | ok r2 v2 =>
          simp only [hx] at h
          injection h with h5 h6
          rw [← h5]
          exact (ih .trm _ _ _ hx).trans
            ((space0_suffix rr).trans (List.suffix_cons '-' rr))
        | err k =>
          simp only [hx] at h
          exact ih .sfx _ _ _ h
        | fail k => simp only [hx] at h; simp at h
      · exact ih .sfx _ _ _ h
    | trms =>
      simp only [parseE] at h
      cases hx : parseE f .trm input with
      | ok r1 v1 =>
        simp only [hx] at h
        exact (ih _ _ _ _ h).trans (ih .trm input r1 v1 hx)
      | err k => simp only [hx] at h; simp at h
      | fail k => simp only [hx] at h; simp at h
    | trmsA acc =>
      simp only [parseE] at h
      cases hsp : space0 input with
      | nil =>
        simp only [hsp] at h
        cases h
        exact List.suffix_refl _
      | cons c r2 =>
        simp only [hsp] at h
        split at h
        · cases hx : parseE f .trm (space0 r2) with
          | ok r3 b =>
            simp only [hx] at h
            have h3 : r3 <:+ space0 r2 := ih .trm _ _ _ hx
            have h4 : r <:+ r3 := ih _ _ _ _ h
            have h5 : (c :: r2) <:+ input := hsp ▸ space0_suffix input
            exact ((h4.trans (h3.trans (space0_suffix r2))).trans
              (List.suffix_cons c r2)).trans h5
          | err k =>
            simp only [hx] at h
            cases h
            exact List.suffix_refl _
          | fail k => simp only [hx] at h; simp at h
        · cases h
          exact List.suffix_refl _

theorem expr_suffix {input r : List Char} {v : Int}
    (h : expr input = .ok r v) : r <:+ input := by
  unfold expr terms at h
  exact parseE_suffix _ _ _ _ _ h

theorem memory_arg_suffix {input r : List Char} {v : List Char × Int}
    (h : memory_arg input = .ok r v) : r <:+ input := by
  unfold memory_arg at h
  cases h1 : takeWhile1 isAlphanumChar (space0 input) with
  | ok r1 name =>
    simp only [h1] at h
    cases h2 : tag "=".toList (space0 r1) with
    | ok r3 t =>
      simp only [h2] at h
      cases h3 : expr (space0 r3) with
      | ok r5 v5 =>
        simp only [h3] at h
        cases h
        exact ((expr_suffix h3).trans (space0_suffix r3)).trans
          (((tag_suffix h2).trans (space0_suffix r1)).trans
            ((takeWhile1_suffix h1).trans (space0_suffix input)))
      | err k => simp only [h3] at h; simp at h
      | fail k => simp only [h3] at h; simp at h
    | err k => simp only [h2] at h; simp at h
    | fail k => simp only [h2] at h; simp at h
  | err k => simp only [h1] at h; simp at h
  | fail k => simp only [h1] at h; simp at h

theorem sepArgs_suffix :
    ∀ (fuel : Nat) (input : List Char) (acc : List (List Char × Int))
      (r : List Char) (v : List (List Char × Int)),
      sepArgs fuel input acc = .ok r v → r <:+ input := by
  intro fuel
  induction fuel with
  | zero =>
    intro input acc r v h
    exact absurd h (by simp [sepArgs])
  | succ f ih =>
    intro input acc r v h
    simp only [sepArgs] at h
    cases hsp : space0 input with
    | nil =>
      simp only [hsp] at h
      cases h
      exact List.suffix_refl _
    | cons c r2 =>
      simp only [hsp] at h
      split at h
      · rename_i x r2' heq
        obtain ⟨hc, hr2⟩ := List.cons.injEq .. ▸ heq
        subst hr2
        cases hm : memory_arg r2 with
        | ok r3 a =>
          simp only [hm] at h
          have h5 : (c :: r2) <:+ input := hsp ▸ space0_suffix input
          exact ((ih _ _ _ _ h).trans
            ((memory_arg_suffix hm).trans (List.suffix_cons c r2))).trans h5
        | err k =>
          simp only [hm] at h
          cases h
          exact List.suffix_refl _
        | fail k => simp only [hm] at h; simp at h
      · cases h
        exact List.suffix_refl _

theorem parseAttr_suffix (l : List Char) : (parseAttr l).2 <:+ l := by
  unfold parseAttr
  split
  · rename_i rr
    cases hx : takeUntil ")".toList rr with
    | some p =>
      obtain ⟨rest, taken⟩ := p
      simp only [hx]
      cases ht : tag ")".toList rest with
      | ok r3 t =>
        simp only [ht]
        exact ((tag_suffix ht).trans (takeUntil_suffix _ rr rest taken hx)).trans
          (List.suffix_cons '(' rr)
      | err k => simp only [ht]; exact List.suffix_refl _
      | fail k => simp only [ht]; exact List.suffix_refl _
    | none => simp only [hx]; exact List.suffix_refl _
  · exact List.suffix_refl _

theorem memory_line_suffix {input r : List Char}
    {v : List Char × Option (List Char) × Int × Int}
    (h : memory_line input = .ok r v) : r <:+ input := by
  unfold memory_line at h
  cases h1 : takeWhile1 isAlphanumChar (space0 input) with
  | ok r1 name =>
    simp only [h1] at h
    cases h2 : tag ":".toList (parseAttr (space0 r1)).2 with
    | ok r4 t =>
      simp only [h2] at h
      cases h3 : memory_arg r4 with
      | ok r5 a =>
        simp only [h3] at h
        cases h4 : sepArgs (r5.length + 1) r5 [a] with
        | ok r6 args =>
          simp only [h4] at h
          cases hp : pickArgs args with
          | mk oo ll =>
            simp only [hp] at h
            cases oo with
            | none => simp at h
            | some o =>
              cases ll with
              | none => simp at h
              | some l =>
                cases h
                exact ((sepArgs_suffix _ _ _ _ _ h4).trans
                  ((memory_arg_suffix h3).trans
                    ((tag_suffix h2).trans
                      ((parseAttr_suffix (space0 r1)).trans
                        ((space0_suffix r1).trans
                          ((takeWhile1_suffix h1).trans (space0_suffix input)))))))
        | err k => simp only [h4] at h; simp at h
        | fail k => simp only [h4] at h; simp at h
      | err k => simp only [h3] at h; simp at h
      | fail k => simp only [h3] at h; simp at h
    | err k => simp only [h2] at h; simp at h
    | fail k => simp only [h2] at h; simp at h
  | err k => simp only [h1] at h; simp at h
  | fail k => simp only [h1] at h; simp at h

theorem named_memory_line_suffix {nm input r : List Char}
    {v : List Char × Option (List Char) × Int × Int}
    (h : named_memory_line nm input = .ok r v) : r <:+ input := by
  unfold named_memory_line at h
  cases hm : memory_line input with
  | ok rest res =>
    obtain ⟨name, attr, o, l⟩ := res
    simp only [hm] at h
    split at h
    · cases h
      exact memory_line_suffix hm
    · simp at h
  | err k => simp only [hm] at h; simp at h
  | fail k => simp only [hm] at h; simp at h

/-- A successful scan decomposes the input: the skipped text, then a suffix on
which the inner parser succeeds. -/
theorem scanFrom_ok_split {α : Type} (g : List Char → PRes α) :
    ∀ (l pre rest b : List Char) (v : α),
      scanFrom g pre l = .ok rest (b, v) →
      ∃ d sfx, b = pre ++ d ∧ l = d ++ sfx ∧ g sfx = .ok rest v := by
  intro l
  induction l with
  | nil =>
    intro pre rest b v h
    exact absurd h (by simp [scanFrom])
  | cons c cs ih =>
    intro pre rest b v h
    cases hg : g (c :: cs) with
    | ok r' v' =>
      simp only [scanFrom, hg] at h
      obtain ⟨h1, h2, h3⟩ : r' = rest ∧ pre = b ∧ v' = v := by simpa using h
      subst h1; subst h3
      exact ⟨[], c :: cs, by simp [h2], rfl, hg⟩
    | err k =>
      simp only [scanFrom, hg] at h
      obtain ⟨d, sfx, hb, hl, hgs⟩ := ih _ _ _ _ h
      exact ⟨c :: d, sfx, by simpa using hb, by simp [hl], hgs⟩
    | fail k => simp only [scanFrom, hg] at h; simp at h

/-- C5 counterexample: a patch that succeeds while changing declaration text
other than the LENGTH value — `ORIGIN = 10` is re-rendered as `ORIGIN = 0xa`
even though the reserved length is 0, so the output is not byte-for-byte
equal to the input outside the LENGTH value. -/
theorem c5_counterexample_origin_rerendered :
    build_link_script "FLASH : ORIGIN = 10, LENGTH = 2".toList 0 =
      .ok ("FLASH : ORIGIN = 0xa, LENGTH = 0x2".toList, 12) ∧
    "FLASH : ORIGIN = 0xa, LENGTH = 0x2".toList ≠
      "FLASH : ORIGIN = 10, LENGTH = 2".toList :=
  ⟨by decide, by decide⟩

/-- C5 (amended): on every successful patch the text before the matched
position and the text after the matched declaration are copied byte-for-byte,
and the matched span itself is replaced by a re-rendered declaration — same
name and attribute text, ORIGIN printed as the hex rendering of its evaluated
value, LENGTH replaced by the new value (surplus fields and original
spacing/radix are not preserved). -/
theorem c5_patch_frame (input : List Char) (rsv : Int) (out : List Char) (addr : Int)
    (h : build_link_script input rsv = .ok (out, addr)) :
    ∃ (before sfx after nm : List Char) (attr : Option (List Char)) (o l : Int),
      input = before ++ sfx ∧
      named_memory_line "FLASH".toList sfx = .ok after (nm, attr, o, l) ∧
      after <:+ sfx ∧
      out = before ++ renderDecl nm attr o (l - rsv) ++ after ∧
      addr = o + l - rsv := by
  unfold build_link_script at h
  cases hf : find_memory_def input "FLASH".toList with
  | ok after pres =>
    obtain ⟨before, nm, attr, o, l⟩ := pres
    simp only [hf] at h
    obtain ⟨h1, h2⟩ : before ++ renderDecl nm attr o (l - rsv) ++ after = out ∧
        o + l - rsv = addr := by simpa using h
    obtain ⟨d, sfx, hb, hl, hgs⟩ :=
      scanFrom_ok_split (named_memory_line "FLASH".toList) input [] after before
        (nm, attr, o, l) hf
    refine ⟨before, sfx, after, nm, attr, o, l, ?_, hgs, ?_, h1.symm, h2.symm⟩
    · rw [hl, hb]
      simp
    · exact named_memory_line_suffix hgs
  | err k =>
    simp only [hf] at h
    simp at h
  | fail k =>
    simp only [hf] at h
    simp at h

set_option maxRecDepth 8192 in
theorem c5_patch_frame_witness :
    ∃ (before sfx after nm : List Char) (attr : Option (List Char)) (o l : Int),
      "MEMORY { FLASH : ORIGIN = 1, LENGTH = 2 }".toList = before ++ sfx ∧
      named_memory_line "FLASH".toList sfx = .ok after (nm, attr, o, l) ∧
      after <:+ sfx ∧
      "MEMORY {FLASH : ORIGIN = 0x1, LENGTH = 0x1 }".toList =
        before ++ renderDecl nm attr o (l - 1) ++ after ∧
      (2 : Int) = o + l - 1 :=
  c5_patch_frame "MEMORY { FLASH : ORIGIN = 1, LENGTH = 2 }".toList 1
    "MEMORY {FLASH : ORIGIN = 0x1, LENGTH = 0x1 }".toList 2 (by decide)

/-! ## Exactness of the expression evaluator (C6) -/

